import Mathlib

/-!
Shallow embedding of the auction domain model of `auctions-api-rustdyn`
(src/src/domain/models/*.rs, src/src/infrastructure/data/auction_repository.rs,
src/src/infrastructure/services/create_bid_command_handler.rs).

Timestamps (`chrono::DateTime<Utc>`) and durations (`chrono::Duration`) are
modelled as `Int`; `i64` values as `Int`; Rust `String` as Lean `String`
(for parsing claims, as `List Char`).  The `Errors` bit-set
(src/src/domain/models/errors.rs) is modelled as a `Nat` bitmask with
bitwise OR (`|||`), mirroring the `u16` transmute-based `BitOr` impl.
-/

/-- Decidable equality on `Except`, so that concrete runs of the fallible
operations can be checked by `decide`. -/
instance {ε α : Type} [DecidableEq ε] [DecidableEq α] : DecidableEq (Except ε α)
  | .ok a, .ok b =>
      decidable_of_iff (a = b) ⟨fun h => by rw [h], fun h => by cases h; rfl⟩
  | .ok _, .error _ => isFalse (fun h => by cases h)
  | .error _, .ok _ => isFalse (fun h => by cases h)
  | .error a, .error b =>
      decidable_of_iff (a = b) ⟨fun h => by rw [h], fun h => by cases h; rfl⟩

/-- Currency codes from src/src/domain/models/currency.rs. -/
inductive CurrencyCode where
  | NONE
  | VAC
  | SEK
  | DKK
deriving DecidableEq, Repr

/-- UserId is an opaque string (src/src/domain/models/user.rs). -/
abbrev UserId := String

/-- Amount: integer value plus currency (src/src/domain/models/amount.rs). -/
structure Amount where
  value : Int
  currency : CurrencyCode
deriving DecidableEq, Repr

/-- BidData from src/src/domain/models/bid.rs. -/
structure BidData where
  user : UserId
  amount : Amount
  at' : Int
deriving DecidableEq, Repr

/-- Bid from src/src/domain/models/bid.rs: an id plus the bid data. -/
structure Bid where
  id : Int
  data : BidData
deriving DecidableEq, Repr

def Bid.user (b : Bid) : UserId := b.data.user

def Bid.amount (b : Bid) : Amount := b.data.amount

def Bid.at' (b : Bid) : Int := b.data.at'

/-- Error flag values from src/src/domain/models/errors.rs (enum `Errors`). -/
def errNone : Nat := 0

def errUnknownAuction : Nat := 1

def errAuctionAlreadyExists : Nat := 2

def errAuctionHasEnded : Nat := 4

def errAuctionHasNotStarted : Nat := 8

def errAuctionNotFound : Nat := 16

def errSellerCannotPlaceBids : Nat := 32

def errBidCurrencyConversion : Nat := 64

def errInvalidUserData : Nat := 128

def errMustPlaceBidOverHighestBid : Nat := 256

def errAlreadyPlacedBid : Nat := 512

def errMustRaiseWithAtLeast : Nat := 1024

def errMustSpecifyAmount : Nat := 2048

/-- Options of a single sealed bid auction (src/src/domain/models/auction.rs). -/
inductive SingleSealedBidOptions where
  | Blind
  | Vickrey
deriving DecidableEq, Repr

/-- Options of a timed ascending auction (src/src/domain/models/auction.rs). -/
structure TimedAscendingOptions where
  reserve_price : Int
  min_raise : Int
  time_frame : Int
deriving DecidableEq, Repr

/-- Shared base of both auction variants (struct `AuctionBase`). -/
structure AuctionBase where
  auction_id : Int
  title : String
  starts_at : Int
  expiry : Int
  user : UserId
  currency : CurrencyCode
  bids : List Bid
  open_bidders : Bool
deriving DecidableEq, Repr

/-- The tagged auction variant (enum `Auction` in auction.rs). -/
inductive Auction where
  | SingleSealedBid (base : AuctionBase) (options : SingleSealedBidOptions)
  | TimedAscending (base : AuctionBase) (options : TimedAscendingOptions)
      (ends_at : Option Int)
deriving DecidableEq, Repr

def Auction.base : Auction → AuctionBase
  | .SingleSealedBid base _ => base
  | .TimedAscending base _ _ => base

def Auction.starts_at (a : Auction) : Int := a.base.starts_at

def Auction.expiry (a : Auction) : Int := a.base.expiry

def Auction.user (a : Auction) : UserId := a.base.user

def Auction.currency (a : Auction) : CurrencyCode := a.base.currency

def Auction.bids (a : Auction) : List Bid := a.base.bids

def Auction.auction_id (a : Auction) : Int := a.base.auction_id

/-- Embedding of `Auction::validate_bid` (auction.rs lines 191-213): the four
common pre-checks, accumulated into one bit set via bitwise OR. -/
def Auction.validate_bid (a : Auction) (bid : BidData) : Nat :=
  let e0 := errNone
  let e1 := if bid.user = a.user then e0 ||| errSellerCannotPlaceBids else e0
  let e2 := if bid.amount.currency ≠ a.currency then e1 ||| errBidCurrencyConversion else e1
  let e3 := if bid.at' < a.starts_at then e2 ||| errAuctionHasNotStarted else e2
  let e4 := if a.expiry < bid.at' then e3 ||| errAuctionHasEnded else e3
  e4

/-- Embedding of `.max_by_key(|b| b.amount().value())` over the bid list.
Rust's `Iterator::max_by_key` returns the LAST maximal element, hence the
`≤` (prefer the later bid on ties).  Returns `none` exactly on `[]`. -/
def maxStep (acc : Option Bid) (b : Bid) : Option Bid :=
  match acc with
  | none => some b
  | some m => if m.amount.value ≤ b.amount.value then some b else some m

def maxByAmountLast (bids : List Bid) : Option Bid :=
  bids.foldl maxStep none

/-- Successful mutation of the TimedAscending arm of `try_add_bid`
(auction.rs lines 277-297): extend `ends_at` to
`max(current_end, time + time_frame)` and append the bid with id `len+1`. -/
def timed_success (base : AuctionBase) (options : TimedAscendingOptions)
    (ends_at : Option Int) (time : Int) (bid : BidData) : Auction :=
  let time_extended := time + options.time_frame
  let current_end := ends_at.getD base.expiry
  let new_end := if current_end < time_extended then time_extended else current_end
  .TimedAscending
    { base with bids := base.bids ++ [⟨(base.bids.length : Int) + 1, bid⟩] }
    options (some new_end)

/-- SingleSealedBid arm of `try_add_bid` (auction.rs lines 223-250).  The
result pair carries the `Result<bool, Errors>` and the post-state of `self`
(the Rust method takes `&mut self`; every early `return Err` leaves `self`
untouched, which the pair makes explicit). -/
def add_bid_sealed (base : AuctionBase) (options : SingleSealedBidOptions)
    (time : Int) (bid : BidData) : Except Nat Bool × Auction :=
  let a := Auction.SingleSealedBid base options
  if base.expiry < time then (.error errAuctionHasEnded, a)
  else if time < base.starts_at then (.error errAuctionHasNotStarted, a)
  else if base.bids.any (fun b => decide (b.user = bid.user)) then
    (.error errAlreadyPlacedBid, a)
  else
    (.ok true,
     .SingleSealedBid
       { base with bids := base.bids ++ [⟨(base.bids.length : Int) + 1, bid⟩] }
       options)

/-- TimedAscending arm of `try_add_bid` (auction.rs lines 251-298).  The Rust
code tests `!bids.is_empty()` and then unwraps `max_by_key`; here the same
split is the `match` on `maxByAmountLast`, which is `none` iff the list is
empty. -/
def add_bid_timed (base : AuctionBase) (options : TimedAscendingOptions)
    (ends_at : Option Int) (time : Int) (bid : BidData) : Except Nat Bool × Auction :=
  let a := Auction.TimedAscending base options ends_at
  if base.expiry < time then (.error errAuctionHasEnded, a)
  else if time < base.starts_at then (.error errAuctionHasNotStarted, a)
  else
    match maxByAmountLast base.bids with
    | some highest =>
        if bid.amount.value ≤ highest.amount.value then
          (.error errMustPlaceBidOverHighestBid, a)
        else if bid.amount.value < highest.amount.value + options.min_raise then
          (.error errMustRaiseWithAtLeast, a)
        else (.ok true, timed_success base options ends_at time bid)
    | none => (.ok true, timed_success base options ends_at time bid)

/-- Embedding of `Auction::try_add_bid` (auction.rs lines 216-300).  The
common pre-check set is computed first; a non-empty set fails before any
format-specific logic runs. -/
def Auction.try_add_bid (a : Auction) (time : Int) (bid : BidData) :
    Except Nat Bool × Auction :=
  let errors := a.validate_bid bid
  if errors ≠ errNone then (.error errors, a)
  else
    match a with
    | .SingleSealedBid base options => add_bid_sealed base options time bid
    | .TimedAscending base options ends_at => add_bid_timed base options ends_at time bid

/-- Embedding of `Auction::get_bids` (auction.rs lines 302-319). -/
def Auction.get_bids (a : Auction) (time : Int) : Option (List Bid) :=
  match a with
  | .SingleSealedBid base _ =>
      if time < base.starts_at ∨ base.expiry < time then none else some base.bids
  | .TimedAscending base _ _ =>
      if time < base.starts_at then none else some base.bids

/-- Stable insertion into a descending-sorted list: the new bid goes after
every element whose amount is ≥ its own, matching the stability of Rust's
`sort_by` under the descending comparator. -/
def insertDesc (b : Bid) : List Bid → List Bid
  | [] => [b]
  | c :: cs =>
      if b.amount.value ≤ c.amount.value then c :: insertDesc b cs else b :: c :: cs

/-- Embedding of `bids.sort_by(|a, b| b.amount().value().cmp(&a.amount().value()))`:
a stable sort by amount descending. -/
def sortByAmountDesc (bids : List Bid) : List Bid :=
  bids.foldl (fun acc b => insertDesc b acc) []

/-- Embedding of `Auction::try_get_amount_and_winner` (auction.rs lines
321-372).  In the Vickrey branch the Rust code indexes `bids[1]`/`bids[0]`
of the sorted vector; that branch only runs with at least two bids, so the
catch-all `none` of the `match` is unreachable (it models the would-be
index panic). -/
def Auction.try_get_amount_and_winner (a : Auction) (time : Int) :
    Option (Amount × UserId) :=
  match a with
  | .SingleSealedBid base options =>
      if time ≤ base.expiry ∨ base.bids = [] then none
      else
        match options with
        | .Blind => (maxByAmountLast base.bids).map (fun b => (b.amount, b.user))
        | .Vickrey =>
            if base.bids.length = 1 then
              base.bids.head?.map (fun b => (b.amount, b.user))
            else
              match sortByAmountDesc base.bids with
              | b0 :: b1 :: _ => some (b1.amount, b0.user)
              | _ => none
  | .TimedAscending base options _ =>
      if time ≤ base.expiry ∨ base.bids = [] then none
      else
        match maxByAmountLast base.bids with
        | some highest =>
            if options.reserve_price ≤ highest.amount.value then
              some (highest.amount, highest.user)
            else none
        | none => none

/-- Embedding of `Auction::has_ended` (auction.rs lines 374-381). -/
def Auction.has_ended (a : Auction) (time : Int) : Bool :=
  match a with
  | .SingleSealedBid base _ => base.expiry < time
  | .TimedAscending base _ ends_at => ends_at.getD base.expiry < time

/-- The effective end time `ends_at ?? expiry` of an auction (for the
SingleSealedBid variant there is no `ends_at`, so it is the expiry). -/
def Auction.effective_end : Auction → Int
  | .SingleSealedBid base _ => base.expiry
  | .TimedAscending base _ ends_at => ends_at.getD base.expiry

/-- CreateAuctionCommand (src/src/domain/commands/create_auction_command.rs). -/
structure CreateAuctionCommand where
  title : String
  currency : CurrencyCode
  starts_at : Int
  ends_at : Int
  min_raise : Option Int
  reserve_price : Option Int
  time_frame : Option Int
  single_sealed_bid_options : Option SingleSealedBidOptions
  open_bidders : Bool
deriving DecidableEq, Repr

/-- Embedding of `AuctionFactory::create_auction` (auction.rs lines 386-423). -/
def AuctionFactory.create_auction (cmd : CreateAuctionCommand) (user_id : UserId) :
    Except String Auction :=
  let base : AuctionBase :=
    { auction_id := 0
      title := cmd.title
      starts_at := cmd.starts_at
      expiry := cmd.ends_at
      user := user_id
      currency := cmd.currency
      bids := []
      open_bidders := cmd.open_bidders }
  match cmd.single_sealed_bid_options with
  | some options => .ok (.SingleSealedBid base options)
  | none =>
      .ok (.TimedAscending base
        { min_raise := cmd.min_raise.getD 0
          reserve_price := cmd.reserve_price.getD 0
          time_frame := cmd.time_frame.getD 0 }
        none)

/-- Error shape of the repository layer (enum `Error` in errors.rs, the
variants `update_auction` can produce besides database failures). -/
inductive RepoError where
  | notFound (msg : String)
  | internalErr (msg : String)
deriving DecidableEq, Repr

/-- Bid ids of an auction, in list order. -/
def bidIds (a : Auction) : List Int := a.bids.map (·.id)

/-- Embedding of `PgAuctionRepository::update_auction` (auction_repository.rs
lines 180-248).  `stored?` is the result of loading the auction by id from
the database (`get_auction`).  The Rust code collects existing and incoming
bid ids into `HashSet`s and takes both set differences; ids present only in
the stored version abort the transaction, ids present only in the incoming
version have their (first matching) bid row inserted.  The returned list is
the set of inserted rows; `dedup` models the `HashSet` of incoming ids. -/
def update_auction (stored? : Option Auction) (auction : Auction) :
    Except RepoError (List Bid) :=
  match stored? with
  | none =>
      .error (.notFound ("Auction with ID " ++ toString auction.auction_id ++ " not found"))
  | some stored =>
      let existing_ids := bidIds stored
      let incoming_ids := bidIds auction
      let to_delete := existing_ids.filter (fun i => decide (i ∉ incoming_ids))
      let to_add := incoming_ids.dedup.filter (fun i => decide (i ∉ existing_ids))
      if to_delete ≠ [] then .error (.internalErr "Should not be able to delete bids")
      else .ok (to_add.filterMap (fun i => auction.bids.find? (fun b => decide (b.id = i))))

/-- CreateBidCommand (src/src/domain/commands/create_bid_command.rs). -/
structure CreateBidCommand where
  amount : Amount
  auction_id : Int
deriving DecidableEq, Repr

/-- Errors of the place-bid handler. -/
inductive HandlerError where
  | validation (e : Nat)
  | unauthorized (msg : String)
deriving DecidableEq, Repr

/-- Embedding of `DefaultCreateBidCommandHandler::handle`
(create_bid_command_handler.rs lines 36-64).  `stored?` is the repository
load result for `command.auction_id`; the system clock is a function from
the call index to the reported time, each `self.system_clock.now()` in the
Rust body consuming the next index: the handler calls it once while
building the `BidData` (index 0) and once more for the `now` argument of
`try_add_bid` (index 1).  On success the updated auction is persisted and
the handler returns it. -/
def handle_create_bid (stored? : Option Auction) (user? : Option UserId)
    (command : CreateBidCommand) (clock : Nat → Int) : Except HandlerError Auction :=
  match stored? with
  | none => .error (.validation errUnknownAuction)
  | some auction =>
      match user? with
      | none => .error (.unauthorized "User must be logged in to place a bid")
      | some user_id =>
          let bid : BidData := { user := user_id, amount := command.amount, at' := clock 0 }
          match auction.try_add_bid (clock 1) bid with
          | (.ok _, updated) => .ok updated
          | (.error errors, _) => .error (.validation errors)

/-- Character class `[A-Z]` of the amount regex. -/
def isUpperAZ (c : Char) : Bool := decide ('A' ≤ c) && decide (c ≤ 'Z')

/-- Character class `[0-9]` of the amount regex. -/
def isDigitCh (c : Char) : Bool := decide ('0' ≤ c) && decide (c ≤ '9')

/-- The decimal digit character for a digit value (values ≥ 9 clamp to '9';
only values below 10 ever occur). -/
def digitChar (d : Nat) : Char :=
  match d with
  | 0 => '0' | 1 => '1' | 2 => '2' | 3 => '3' | 4 => '4'
  | 5 => '5' | 6 => '6' | 7 => '7' | 8 => '8' | _ => '9'

/-- Numeric value of a decimal digit character. -/
def digitVal (c : Char) : Nat := c.toNat - 48

/-- Decimal rendering of a natural number, as Rust's integer `Display`
produces it (most significant digit first, `0` as `"0"`). -/
def renderNat (n : Nat) : List Char :=
  if n = 0 then ['0'] else ((Nat.digits 10 n).map digitChar).reverse

/-- Decimal rendering of an `i64`, as Rust's `Display` produces it. -/
def renderInt (n : Int) : List Char :=
  if n < 0 then '-' :: renderNat (-n).toNat else renderNat n.toNat

/-- Decimal parse of a digit string, as `str::parse::<i64>` folds it up
(the callers guarantee every character is a digit). -/
def parseNatDigits (s : List Char) : Nat :=
  s.foldl (fun a c => 10 * a + digitVal c) 0

/-- Rendering of a currency code (`Display for CurrencyCode`). -/
def CurrencyCode.render : CurrencyCode → List Char
  | .NONE => ['N', 'O', 'N', 'E']
  | .VAC => ['V', 'A', 'C']
  | .SEK => ['S', 'E', 'K']
  | .DKK => ['D', 'K', 'K']

/-- Parsing of a currency symbol (`FromStr for CurrencyCode`); note that
`"NONE"` is rejected. -/
def parseCurrency (s : List Char) : Option CurrencyCode :=
  if s = ['V', 'A', 'C'] then some .VAC
  else if s = ['S', 'E', 'K'] then some .SEK
  else if s = ['D', 'K', 'K'] then some .DKK
  else none

/-- Rendering of an amount (`Display for Amount`): currency symbol followed
by the integer value. -/
def renderAmount (a : Amount) : List Char :=
  a.currency.render ++ renderInt a.value

/-- Embedding of `FromStr for Amount` (amount.rs lines 16-34).  The regex
`^(?<currency>[A-Z]+)(?<value>[0-9]+)$` matches exactly when the string is
a non-empty run of `A`-`Z` followed by a non-empty run of digits; because
the two classes are disjoint, the greedy currency group is the longest
uppercase prefix, i.e. `takeWhile`. -/
def amount_from_str (s : List Char) : Except String Amount :=
  let p := s.takeWhile isUpperAZ
  let rest := s.dropWhile isUpperAZ
  if p = [] ∨ rest = [] ∨ ¬ (rest.all isDigitCh) then
    .error ("Invalid amount value: " ++ String.mk s)
  else
    match parseCurrency p with
    | none => .error ("Invalid currency code: " ++ String.mk s)
    | some c => .ok ⟨Int.ofNat (parseNatDigits rest), c⟩

/-- User variant from src/src/domain/models/user.rs; ids and names are kept
as character lists for the wire-format claims. -/
inductive User where
  | BuyerOrSeller (id : List Char) (name : Option (List Char))
  | Support (id : List Char)
deriving DecidableEq, Repr

/-- Rendering of a user (`Display for User`, user.rs lines 86-99):
pipe-delimited `BuyerOrSeller|id|name`, `BuyerOrSeller|id` or `Support|id`. -/
def User.render : User → List Char
  | .BuyerOrSeller id (some name) => "BuyerOrSeller".data ++ '|' :: (id ++ '|' :: name)
  | .BuyerOrSeller id none => "BuyerOrSeller".data ++ '|' :: id
  | .Support id => "Support".data ++ '|' :: id

/-- Embedding of `s.split('|').collect::<Vec<_>>()`: split on every pipe,
keeping empty parts. -/
def splitPipe : List Char → List (List Char)
  | [] => [[]]
  | c :: cs =>
      if c = '|' then [] :: splitPipe cs
      else
        match splitPipe cs with
        | [] => [[c]]
        | p :: ps => (c :: p) :: ps

/-- Embedding of `User::from_string` (user.rs lines 52-83).  `parts[0]` picks
the variant; a third part becomes the optional name and any later parts are
ignored. -/
def User.from_string (s : List Char) : Except String User :=
  match splitPipe s with
  | [] => .error "Invalid user string format"
  | p0 :: rest =>
      if p0 = [] then .error "Invalid user string format"
      else if p0 = "BuyerOrSeller".data then
        match rest with
        | [] => .error "Missing BuyerOrSeller ID"
        | idc :: rest2 =>
            match rest2 with
            | [] => .ok (.BuyerOrSeller idc none)
            | namec :: _ => .ok (.BuyerOrSeller idc (some namec))
      else if p0 = "Support".data then
        match rest with
        | [] => .error "Missing Support ID"
        | idc :: _ => .ok (.Support idc)
      else .error ("Unknown user type: " ++ String.mk p0)

/-- A user value none of whose string fields contains the pipe delimiter. -/
def pipeFree : User → Bool
  | .BuyerOrSeller id name =>
      decide ('|' ∉ id) &&
        (match name with
         | none => true
         | some n => decide ('|' ∉ n))
  | .Support id => decide ('|' ∉ id)

/-- Folding a list of (time, bid) admission attempts over an auction:
each step is the post-state of `try_add_bid`, whether it succeeded or not. -/
def apply_bids (a : Auction) (steps : List (Int × BidData)) : Auction :=
  steps.foldl (fun acc p => (acc.try_add_bid p.1 p.2).2) a

/-- Descending sortedness by amount value. -/
def SortedDescAmount (l : List Bid) : Prop :=
  l.Pairwise (fun x y => y.amount.value ≤ x.amount.value)

/-! ### Concrete fixtures (mirroring src/tests/auction_tests.rs, with small
integer timestamps: starts_at 0, expiry 100, seller x1, currency SEK) -/

def sampleBase : AuctionBase :=
  { auction_id := 1, title := "auction", starts_at := 0, expiry := 100,
    user := "x1", currency := .SEK, bids := [], open_bidders := true }

def bidA : Bid := ⟨1, { user := "x2", amount := ⟨150, .SEK⟩, at' := 1 }⟩

def bidB : Bid := ⟨2, { user := "x3", amount := ⟨200, .SEK⟩, at' := 2 }⟩

def sealedBlind : Auction :=
  .SingleSealedBid { sampleBase with bids := [bidA, bidB] } .Blind

def vickBase : AuctionBase := { sampleBase with bids := [bidA, bidB] }

def lowOpts : TimedAscendingOptions := { reserve_price := 150, min_raise := 10, time_frame := 5 }

def lowBase : AuctionBase :=
  { sampleBase with bids := [⟨1, { user := "x2", amount := ⟨60, .SEK⟩, at' := 1 }⟩] }

def wBid : BidData := { user := "x2", amount := ⟨50, .SEK⟩, at' := 50 }

def wAfter : Auction := ((Auction.TimedAscending sampleBase lowOpts none).try_add_bid 50 wBid).2

def sellerBid : BidData := { user := "x1", amount := ⟨70, .SEK⟩, at' := 1 }

def badCmd : CreateAuctionCommand :=
  { title := "t", currency := .SEK, starts_at := 5, ends_at := 3,
    min_raise := none, reserve_price := none, time_frame := none,
    single_sealed_bid_options := none, open_bidders := false }

def badOut : Auction :=
  .TimedAscending
    { auction_id := 0, title := "t", starts_at := 5, expiry := 3, user := "x1",
      currency := .SEK, bids := [], open_bidders := false }
    { reserve_price := 0, min_raise := 0, time_frame := 0 } none

def timedW : Auction := .TimedAscending sampleBase lowOpts none

def cmdW : CreateBidCommand := ⟨⟨150, .SEK⟩, 1⟩

def clockW : Nat → Int := fun n => 100 + n

def clockC : Nat → Int := fun n => if n ≤ 1 then 50 else 999

def storedOne : Auction := .SingleSealedBid { sampleBase with bids := [bidA] } .Blind

/-! ### Supporting lemmas -/

/-- Folding `maxStep` from a present accumulator yields a bid from the
accumulator or the list, at least as large as both. -/
theorem foldl_maxStep_spec (l : List Bid) : ∀ m : Bid,
    ∃ r, l.foldl maxStep (some m) = some r ∧ (r = m ∨ r ∈ l) ∧
      m.amount.value ≤ r.amount.value ∧ ∀ x ∈ l, x.amount.value ≤ r.amount.value := by
  induction l with
  | nil => intro m; exact ⟨m, rfl, Or.inl rfl, le_refl _, by simp⟩
  | cons c cs ih =>
    intro m
    by_cases h : m.amount.value ≤ c.amount.value
    · obtain ⟨r, h1, h2, h3, h4⟩ := ih c
      refine ⟨r, ?_, ?_, ?_, ?_⟩
      · simpa [maxStep, h] using h1
      · rcases h2 with h2 | h2
        · exact Or.inr (by simp [h2])
        · exact Or.inr (by simp [h2])
      · exact le_trans h h3
      · intro x hx
        rcases List.mem_cons.mp hx with hx | hx
        · exact hx ▸ h3
        · exact h4 x hx
    · obtain ⟨r, h1, h2, h3, h4⟩ := ih m
      refine ⟨r, ?_, ?_, h3, ?_⟩
      · simpa [maxStep, h] using h1
      · rcases h2 with h2 | h2
        · exact Or.inl h2
        · exact Or.inr (by simp [h2])
      · intro x hx
        rcases List.mem_cons.mp hx with hx | hx
        · exact hx ▸ le_trans (le_of_lt (lt_of_not_le h)) h3
        · exact h4 x hx

/-- On a non-empty list, `maxByAmountLast` yields a member of the list whose
amount bounds every member's amount. -/
theorem maxByAmountLast_spec (l : List Bid) (h : l ≠ []) :
    ∃ r, maxByAmountLast l = some r ∧ r ∈ l ∧
      ∀ x ∈ l, x.amount.value ≤ r.amount.value := by
  cases l with
  | nil => exact absurd rfl h
  | cons c cs =>
    obtain ⟨r, h1, h2, h3, h4⟩ := foldl_maxStep_spec cs c
    refine ⟨r, ?_, ?_, ?_⟩
    · simpa [maxByAmountLast, maxStep] using h1
    · rcases h2 with h2 | h2
      · simp [h2]
      · simp [h2]
    · intro x hx
      rcases List.mem_cons.mp hx with hx | hx
      · exact hx ▸ h3
      · exact h4 x hx

/-- Inserting preserves the multiset of elements. -/
theorem insertDesc_perm (b : Bid) (l : List Bid) : (insertDesc b l).Perm (b :: l) := by
  induction l with
  | nil => simp [insertDesc]
  | cons c cs ih =>
    by_cases h : b.amount.value ≤ c.amount.value
    · simpa [insertDesc, h] using ((ih.cons c).trans (List.Perm.swap b c cs))
    · simp [insertDesc, h]

/-- The fold of `insertDesc` permutes the input onto the accumulator. -/
theorem foldl_insertDesc_perm (l : List Bid) : ∀ acc : List Bid,
    (l.foldl (fun acc b => insertDesc b acc) acc).Perm (l ++ acc) := by
  induction l with
  | nil => intro acc; simp
  | cons c cs ih =>
    intro acc
    have h1 := ih (insertDesc c acc)
    have h2 : (cs ++ insertDesc c acc).Perm (cs ++ c :: acc) :=
      List.Perm.append_left cs (insertDesc_perm c acc)
    have h3 : (cs ++ c :: acc).Perm (c :: (cs ++ acc)) := List.perm_middle
    simpa using (h1.trans h2).trans h3

/-- The stable descending sort is a permutation of its input. -/
theorem sortByAmountDesc_perm (l : List Bid) : (sortByAmountDesc l).Perm l := by
  simpa [sortByAmountDesc] using foldl_insertDesc_perm l []

/-- Inserting keeps the list sorted descending. -/
theorem insertDesc_sorted (b : Bid) (l : List Bid) (h : SortedDescAmount l) :
    SortedDescAmount (insertDesc b l) := by
  induction l with
  | nil => simp [insertDesc, SortedDescAmount]
  | cons c cs ih =>
    rcases List.pairwise_cons.mp h with ⟨hc, hcs⟩
    by_cases hbc : b.amount.value ≤ c.amount.value
    · rw [SortedDescAmount, insertDesc, if_pos hbc]
      refine List.pairwise_cons.mpr ⟨?_, ih hcs⟩
      intro y hy
      rcases List.mem_cons.mp ((insertDesc_perm b cs).mem_iff.mp hy) with hy' | hy'
      · exact hy' ▸ hbc
      · exact hc y hy'
    · rw [SortedDescAmount, insertDesc, if_neg hbc]
      refine List.pairwise_cons.mpr ⟨?_, h⟩
      intro y hy
      rcases List.mem_cons.mp hy with hy' | hy'
      · exact hy' ▸ le_of_lt (lt_of_not_le hbc)
      · exact le_trans (hc y hy') (le_of_lt (lt_of_not_le hbc))

/-- The fold of `insertDesc` preserves sortedness. -/
theorem foldl_insertDesc_sorted (l : List Bid) : ∀ acc : List Bid,
    SortedDescAmount acc → SortedDescAmount (l.foldl (fun acc b => insertDesc b acc) acc) := by
  induction l with
  | nil => intro acc h; simpa using h
  | cons c cs ih =>
    intro acc h
    exact ih (insertDesc c acc) (insertDesc_sorted c acc h)

/-- The stable descending sort is sorted descending by amount value. -/
theorem sortByAmountDesc_sorted (l : List Bid) : SortedDescAmount (sortByAmountDesc l) :=
  foldl_insertDesc_sorted l [] (by simp [SortedDescAmount])

/-- Decimal digit characters round-trip through their values. -/
theorem digitVal_digitChar : ∀ d < 10, digitVal (digitChar d) = d := by decide

/-- Decimal digit characters are in `[0-9]` and not in `[A-Z]`. -/
theorem digitChar_class :
    ∀ d < 10, isDigitCh (digitChar d) = true ∧ isUpperAZ (digitChar d) = false := by decide

/-- The decimal rendering of a natural number is never empty. -/
theorem renderNat_ne_nil (n : Nat) : renderNat n ≠ [] := by
  unfold renderNat
  by_cases h : n = 0
  · simp [h]
  · simp [h, Nat.digits_ne_nil_iff_ne_zero.mpr h]

/-- Every character of a decimal rendering is a digit and not uppercase. -/
theorem renderNat_all (n : Nat) :
    ∀ c ∈ renderNat n, isDigitCh c = true ∧ isUpperAZ c = false := by
  intro c hc
  unfold renderNat at hc
  by_cases h : n = 0
  · simp [h] at hc
    simp [hc]; decide
  · simp [h] at hc
    rcases hc with ⟨d, hd, hdc⟩
    have hlt : d < 10 := Nat.digits_lt_base (by norm_num) hd
    exact hdc ▸ digitChar_class d hlt

/-- Parsing inverts the decimal rendering of a natural number. -/
theorem parseNatDigits_renderNat (n : Nat) : parseNatDigits (renderNat n) = n := by
  by_cases h : n = 0
  · subst h; rfl
  · have hfold : ∀ ds : List Nat, (∀ d ∈ ds, d < 10) →
        ds.foldr (fun d a => 10 * a + digitVal (digitChar d)) 0 = Nat.ofDigits 10 ds := by
      intro ds
      induction ds with
      | nil => intro _; simp [Nat.ofDigits]
      | cons d ds' ih =>
        intro hds
        have hd : d < 10 := hds d (by simp)
        have ihds := ih (fun x hx => hds x (by simp [hx]))
        rw [List.foldr_cons, ihds, digitVal_digitChar d hd, Nat.ofDigits_cons]
        omega
    unfold renderNat parseNatDigits
    rw [if_neg h, List.foldl_reverse, List.foldr_map]
    have := hfold (Nat.digits 10 n) (fun d hd => Nat.digits_lt_base (by norm_num) hd)
    simpa [this] using Nat.ofDigits_digits 10 n

/-- `takeWhile`/`dropWhile` split an append exactly when the whole first part
satisfies the predicate and the head of the second part does not. -/
theorem takeWhile_dropWhile_append {p : Char → Bool} (l₁ l₂ : List Char)
    (h₁ : ∀ c ∈ l₁, p c = true) (h₂ : ∀ c, l₂.head? = some c → p c = false) :
    (l₁ ++ l₂).takeWhile p = l₁ ∧ (l₁ ++ l₂).dropWhile p = l₂ := by
  induction l₁ with
  | nil =>
    cases l₂ with
    | nil => simp
    | cons c cs => simp [List.takeWhile_cons, List.dropWhile_cons, h₂ c rfl]
  | cons a as ih =>
    have ha : p a = true := h₁ a (by simp)
    have hih := ih (fun c hc => h₁ c (by simp [hc]))
    simp [List.takeWhile_cons, List.dropWhile_cons, ha, hih.1, hih.2]

/-- Splitting a pipe-free string yields that single part. -/
theorem splitPipe_no_pipe (l : List Char) (h : '|' ∉ l) : splitPipe l = [l] := by
  induction l with
  | nil => rfl
  | cons c cs ih =>
    have hc : ¬ (c = '|') := fun he => h (by simp [he])
    have hcs : '|' ∉ cs := fun hm => h (by simp [hm])
    simp [splitPipe, hc, ih hcs]

/-- Splitting peels off a pipe-free first part at the first delimiter. -/
theorem splitPipe_append (l₁ l₂ : List Char) (h : '|' ∉ l₁) :
    splitPipe (l₁ ++ '|' :: l₂) = l₁ :: splitPipe l₂ := by
  induction l₁ with
  | nil => simp [splitPipe]
  | cons c cs ih =>
    have hc : ¬ (c = '|') := fun he => h (by simp [he])
    have hcs : '|' ∉ cs := fun hm => h (by simp [hm])
    simp [splitPipe, hc, ih hcs]

/-! ### Claim theorems -/

/-- C1 (code divergence witness): on a SingleSealedBid auction the code's
`get_bids` RETURNS the bid list at a time inside `[starts_at, expiry]`
(here `now = 50`) and returns NOTHING after expiry (here `now = 101`),
the exact opposite of the specified seal (hidden until `expiry`, full list
after).  The winner query of the very same auction only reveals after
expiry, so the code is also internally incoherent at `now = 101`. -/
theorem sealed_get_bids_breaks_seal :
    sealedBlind.get_bids 50 = some [bidA, bidB] ∧
    sealedBlind.get_bids 101 = none ∧
    sealedBlind.try_get_amount_and_winner 101 = some (⟨200, .SEK⟩, "x3") := by
  decide

/-- C4: the four common pre-checks are evaluated together, all applicable
flags accumulated via bitwise OR into one error set `S`; when `S` is
non-empty, `try_add_bid` fails with exactly `S` and an unchanged auction,
for EVERY value of `now` — i.e. before any format-specific check runs. -/
theorem common_pre_checks_accumulate (a : Auction) (t : Int) (bid : BidData) (S : Nat)
    (hdef : S = (if bid.user = a.user then errSellerCannotPlaceBids else 0) |||
                (if bid.amount.currency ≠ a.currency then errBidCurrencyConversion else 0) |||
                (if bid.at' < a.starts_at then errAuctionHasNotStarted else 0) |||
                (if a.expiry < bid.at' then errAuctionHasEnded else 0))
    (hS : S ≠ 0) :
    a.try_add_bid t bid = (Except.error S, a) := by
  have hv : a.validate_bid bid = S := by
    subst hdef
    unfold Auction.validate_bid errNone errSellerCannotPlaceBids errBidCurrencyConversion
      errAuctionHasNotStarted errAuctionHasEnded
    split_ifs <;> rfl
  simp only [Auction.try_add_bid, hv]
  have hS' : S ≠ errNone := hS
  rw [if_pos hS']

/-- C4 witness: a bid by the seller, in a foreign currency, after expiry,
accumulates `SellerCannotPlaceBids ||| BidCurrencyConversion |||
AuctionHasEnded = 32 ||| 64 ||| 4 = 100` in one failure. -/
theorem common_pre_checks_accumulate_witness :
    sealedBlind.try_add_bid 50 { user := "x1", amount := ⟨300, .VAC⟩, at' := 101 } =
      (Except.error 100, sealedBlind) :=
  common_pre_checks_accumulate sealedBlind 50
    { user := "x1", amount := ⟨300, .VAC⟩, at' := 101 } 100 (by decide) (by decide)

/-- C8 (counterexample): the auction factory performs no validation at all;
a command whose `starts_at` (5) is not before its `ends_at` (3) is accepted
and yields an auction violating `starts_at < expiry`. -/
theorem create_auction_accepts_inverted_times :
    AuctionFactory.create_auction badCmd "x1" = Except.ok badOut ∧
    ¬ (badOut.starts_at < badOut.expiry) := by
  decide

/-- C8 (amended): `create_auction` always succeeds and copies `starts_at`
and `ends_at` from the command unchecked, so the created auction satisfies
`starts_at < expiry` exactly when the command already did. -/
theorem create_auction_copies_times (cmd : CreateAuctionCommand) (uid : UserId) :
    ∃ a, AuctionFactory.create_auction cmd uid = Except.ok a ∧
      a.starts_at = cmd.starts_at ∧ a.expiry = cmd.ends_at ∧
      (a.starts_at < a.expiry ↔ cmd.starts_at < cmd.ends_at) := by
  unfold AuctionFactory.create_auction
  cases cmd.single_sealed_bid_options with
  | none => exact ⟨_, rfl, rfl, rfl, Iff.rfl⟩
  | some o => exact ⟨_, rfl, rfl, rfl, Iff.rfl⟩

/-- Rust's `if current_end < time_extended .. else ..` is exactly `max`. -/
theorem ite_lt_max (a b : Int) : (if a < b then b else a) = max a b := by
  by_cases h : a < b
  · simp [h, max_eq_right (le_of_lt h)]
  · simp [h, max_eq_left (not_lt.mp h)]

/-- Unfolding of `try_add_bid` on the SingleSealedBid constructor. -/
theorem try_add_bid_sealed_eq (base : AuctionBase) (opts : SingleSealedBidOptions)
    (t : Int) (bid : BidData) :
    (Auction.SingleSealedBid base opts).try_add_bid t bid =
      (if (Auction.SingleSealedBid base opts).validate_bid bid ≠ errNone
       then (Except.error ((Auction.SingleSealedBid base opts).validate_bid bid),
             Auction.SingleSealedBid base opts)
       else add_bid_sealed base opts t bid) := rfl

/-- Unfolding of `try_add_bid` on the TimedAscending constructor. -/
theorem try_add_bid_timed_eq (base : AuctionBase) (opts : TimedAscendingOptions)
    (ea : Option Int) (t : Int) (bid : BidData) :
    (Auction.TimedAscending base opts ea).try_add_bid t bid =
      (if (Auction.TimedAscending base opts ea).validate_bid bid ≠ errNone
       then (Except.error ((Auction.TimedAscending base opts ea).validate_bid bid),
             Auction.TimedAscending base opts ea)
       else add_bid_timed base opts ea t bid) := rfl

/-- C10: `try_add_bid` is atomic on failure — whenever it reports an error
set, the post-state equals the input auction (no bid appended, `ends_at`
untouched), for both formats. -/
theorem try_add_bid_atomic (a : Auction) (t : Int) (bid : BidData) (e : Nat)
    (h : (a.try_add_bid t bid).1 = Except.error e) :
    (a.try_add_bid t bid).2 = a := by
  cases a with
  | SingleSealedBid base opts =>
    rw [try_add_bid_sealed_eq] at h ⊢
    by_cases hv : (Auction.SingleSealedBid base opts).validate_bid bid ≠ errNone
    · rw [if_pos hv]
    · rw [if_neg hv] at h ⊢
      simp only [add_bid_sealed] at h ⊢
      split_ifs at h ⊢ <;> simp_all
  | TimedAscending base opts ea =>
    rw [try_add_bid_timed_eq] at h ⊢
    by_cases hv : (Auction.TimedAscending base opts ea).validate_bid bid ≠ errNone
    · rw [if_pos hv]
    · rw [if_neg hv] at h ⊢
      simp only [add_bid_timed] at h ⊢
      by_cases h1 : base.expiry < t
      · simp [h1]
      · by_cases h2 : t < base.starts_at
        · simp [h1, h2]
        · rw [if_neg h1, if_neg h2] at h ⊢
          cases hm : maxByAmountLast base.bids with
          | none => rw [hm] at h; exact Except.noConfusion h
          | some highest =>
            rw [hm] at h
            dsimp only at h ⊢
            split_ifs at h ⊢ <;> simp_all

/-- C10 witness: a seller bid fails (`SellerCannotPlaceBids`) and the
auction value is untouched. -/
theorem try_add_bid_atomic_witness :
    (sealedBlind.try_add_bid 1 sellerBid).2 = sealedBlind :=
  try_add_bid_atomic sealedBlind 1 sellerBid errSellerCannotPlaceBids (by decide)

/-- C3: for a TimedAscending auction the winner query yields nothing while
`now ≤ expiry` or with no bids; after expiry with bids it picks a bid of
maximal amount and yields `(amount, user)` of that bid exactly when the
amount meets the reserve price. -/
theorem timed_winner_resolution (base : AuctionBase) (opts : TimedAscendingOptions)
    (e : Option Int) (t : Int) :
    ((t ≤ base.expiry ∨ base.bids = []) →
        (Auction.TimedAscending base opts e).try_get_amount_and_winner t = none) ∧
    (base.expiry < t → base.bids ≠ [] →
        ∃ b, b ∈ base.bids ∧ (∀ x ∈ base.bids, x.amount.value ≤ b.amount.value) ∧
          (Auction.TimedAscending base opts e).try_get_amount_and_winner t =
            (if opts.reserve_price ≤ b.amount.value then some (b.amount, b.user) else none)) := by
  constructor
  · intro h
    simp only [Auction.try_get_amount_and_winner]
    rw [if_pos h]
  · intro ht hne
    obtain ⟨r, hr, hmem, hmax⟩ := maxByAmountLast_spec base.bids hne
    refine ⟨r, hmem, hmax, ?_⟩
    simp only [Auction.try_get_amount_and_winner]
    rw [if_neg (by push_neg; exact ⟨ht, hne⟩), hr]

/-- C3 witness: highest bid 60 under reserve 150, queried after expiry —
the theorem instantiates to the reserve-not-met outcome. -/
theorem timed_winner_resolution_witness :
    ∃ b, b ∈ lowBase.bids ∧ (∀ x ∈ lowBase.bids, x.amount.value ≤ b.amount.value) ∧
      (Auction.TimedAscending lowBase lowOpts none).try_get_amount_and_winner 101 =
        (if lowOpts.reserve_price ≤ b.amount.value then some (b.amount, b.user) else none) :=
  (timed_winner_resolution lowBase lowOpts none 101).2 (by decide) (by decide)

/-- One admission attempt never decreases the effective end time
(`ends_at ?? expiry`). -/
theorem try_add_bid_effective_end_mono (a : Auction) (t : Int) (bid : BidData) :
    a.effective_end ≤ ((a.try_add_bid t bid).2).effective_end := by
  cases a with
  | SingleSealedBid base opts =>
    rw [try_add_bid_sealed_eq]
    by_cases hv : (Auction.SingleSealedBid base opts).validate_bid bid ≠ errNone
    · rw [if_pos hv]
    · rw [if_neg hv]
      simp only [add_bid_sealed]
      split_ifs <;> simp [Auction.effective_end]
  | TimedAscending base opts ea =>
    have key : (Auction.TimedAscending base opts ea).effective_end ≤
        (timed_success base opts ea t bid).effective_end := by
      simp only [timed_success, Auction.effective_end, ite_lt_max]
      exact le_max_left _ _
    rw [try_add_bid_timed_eq]
    by_cases hv : (Auction.TimedAscending base opts ea).validate_bid bid ≠ errNone
    · rw [if_pos hv]
    · rw [if_neg hv]
      simp only [add_bid_timed]
      by_cases h1 : base.expiry < t
      · simp [h1]
      · by_cases h2 : t < base.starts_at
        · simp [h1, h2]
        · rw [if_neg h1, if_neg h2]
          cases hm : maxByAmountLast base.bids with
          | none => simpa using key
          | some highest =>
            dsimp only
            split_ifs <;> simp_all

/-- The effective end time is non-decreasing along any admission sequence. -/
theorem apply_bids_mono (steps : List (Int × BidData)) : ∀ a : Auction,
    a.effective_end ≤ (apply_bids a steps).effective_end := by
  induction steps with
  | nil => intro a; simp [apply_bids]
  | cons s ss ih =>
    intro a
    have h1 := try_add_bid_effective_end_mono a s.1 s.2
    have h2 := ih ((a.try_add_bid s.1 s.2).2)
    simpa [apply_bids] using le_trans h1 h2

/-- C5: a successful TimedAscending admission appends the bid with id
`len(bids)+1` and sets `ends_at := max(current_end, now + time_frame)`
with `current_end := ends_at ?? expiry`; consequently, along any sequence
of admissions starting from an auction with no recorded `ends_at`, the
effective end time is non-decreasing and never below `expiry`. -/
theorem timed_soft_close (base : AuctionBase) (opts : TimedAscendingOptions)
    (e : Option Int) (t : Int) (bid : BidData) :
    (∀ (r : Bool) (a' : Auction),
        (Auction.TimedAscending base opts e).try_add_bid t bid = (Except.ok r, a') →
        a' = Auction.TimedAscending
              { base with bids := base.bids ++ [⟨(base.bids.length : Int) + 1, bid⟩] }
              opts (some (max (e.getD base.expiry) (t + opts.time_frame)))) ∧
    (∀ steps more : List (Int × BidData),
        (apply_bids (Auction.TimedAscending base opts none) steps).effective_end ≤
          (apply_bids (Auction.TimedAscending base opts none) (steps ++ more)).effective_end ∧
        base.expiry ≤ (apply_bids (Auction.TimedAscending base opts none) steps).effective_end) := by
  constructor
  · intro r a' h
    have hsucc : timed_success base opts e t bid = Auction.TimedAscending
        { base with bids := base.bids ++ [⟨(base.bids.length : Int) + 1, bid⟩] }
        opts (some (max (e.getD base.expiry) (t + opts.time_frame))) := by
      simp [timed_success, ite_lt_max]
    rw [try_add_bid_timed_eq] at h
    by_cases hv : (Auction.TimedAscending base opts e).validate_bid bid ≠ errNone
    · rw [if_pos hv] at h
      exact absurd (congrArg Prod.fst h) (by simp)
    · rw [if_neg hv] at h
      simp only [add_bid_timed] at h
      split_ifs at h with h1 h2
      · exact absurd (congrArg Prod.fst h) (by simp)
      · exact absurd (congrArg Prod.fst h) (by simp)
      · cases hm : maxByAmountLast base.bids with
        | none =>
          rw [hm] at h
          have h2 := congrArg Prod.snd h
          simp only at h2
          rw [← h2]; exact hsucc
        | some highest =>
          rw [hm] at h
          dsimp only at h
          split_ifs at h with h3 h4
          · exact absurd (congrArg Prod.fst h) (by simp)
          · exact absurd (congrArg Prod.fst h) (by simp)
          · have h5 := congrArg Prod.snd h
            simp only at h5
            rw [← h5]; exact hsucc
  · intro steps more
    constructor
    · have happ : apply_bids (Auction.TimedAscending base opts none) (steps ++ more) =
          apply_bids (apply_bids (Auction.TimedAscending base opts none) steps) more := by
        simp [apply_bids, List.foldl_append]
      rw [happ]
      exact apply_bids_mono more _
    · have h0 : (Auction.TimedAscending base opts none).effective_end = base.expiry := rfl
      have := apply_bids_mono steps (Auction.TimedAscending base opts none)
      omega

/-- C5 witness: a first bid at `now = 50` with `time_frame = 5` on an
auction with no recorded end extends `ends_at` to `max(100, 55) = 100`. -/
theorem timed_soft_close_witness :
    wAfter = Auction.TimedAscending
        { sampleBase with bids := sampleBase.bids ++ [⟨(sampleBase.bids.length : Int) + 1, wBid⟩] }
        lowOpts (some (max ((none : Option Int).getD sampleBase.expiry) (50 + lowOpts.time_frame))) :=
  (timed_soft_close sampleBase lowOpts none 50 wBid).1 true wAfter (by decide)

/-- C7 (counterexample): the handler reads the system clock twice, not once.
With a clock that advances between the two reads (`clockW 0 = 100`,
`clockW 1 = 101`) the bid is stamped `at = 100` (inside the window, expiry
100) yet `try_add_bid` receives `now = 101`, so the handler rejects with
`AuctionHasEnded`; under a single read (`now = at = 100`) the very same
call succeeds.  Hence the result is not a function of one clock query and
the stamp can disagree with the `now` argument. -/
theorem handle_create_bid_two_clock_reads :
    handle_create_bid (some timedW) (some "x2") cmdW clockW =
      Except.error (.validation errAuctionHasEnded) ∧
    handle_create_bid (some timedW) (some "x2") cmdW clockW ≠
      handle_create_bid (some timedW) (some "x2") cmdW (fun _ => clockW 0) := by
  decide

/-- C7 (amended): the handler queries the clock twice — the `at` stamp is
the first reading and the `now` argument of `try_add_bid` is the second;
whenever the two readings coincide the handler behaves exactly as if the
clock had been queried once and reused. -/
theorem handle_create_bid_single_clock (stored? : Option Auction) (user? : Option UserId)
    (cmd : CreateBidCommand) (clock : Nat → Int) (h : clock 0 = clock 1) :
    handle_create_bid stored? user? cmd clock =
      handle_create_bid stored? user? cmd (fun _ => clock 0) := by
  cases stored? with
  | none => rfl
  | some a =>
    cases user? with
    | none => rfl
    | some uid =>
      simp only [handle_create_bid]
      rw [← h]

/-- C7 witness: a clock that returns 50 on both of the first two reads (and
999 later) makes the handler agree with its single-read counterpart. -/
theorem handle_create_bid_single_clock_witness :
    handle_create_bid (some timedW) (some "x2") cmdW clockC =
      handle_create_bid (some timedW) (some "x2") cmdW (fun _ => clockC 0) :=
  handle_create_bid_single_clock (some timedW) (some "x2") cmdW clockC (by decide)

/-- C6: repository `update` fails with `NotFound` when no stored auction has
the id, fails with `Internal("Should not be able to delete bids")` when a
stored bid id is missing from the incoming auction, and otherwise inserts
exactly the bids whose ids are new (present in incoming, absent in stored). -/
theorem update_auction_spec (stored? : Option Auction) (incoming : Auction) :
    (stored? = none →
        update_auction stored? incoming =
          Except.error (.notFound
            ("Auction with ID " ++ toString incoming.auction_id ++ " not found"))) ∧
    (∀ stored, stored? = some stored →
        ((∃ i ∈ bidIds stored, i ∉ bidIds incoming) →
            update_auction stored? incoming =
              Except.error (.internalErr "Should not be able to delete bids")) ∧
        ((∀ i ∈ bidIds stored, i ∈ bidIds incoming) →
            ∃ inserted, update_auction stored? incoming = Except.ok inserted ∧
              (∀ b ∈ inserted, b ∈ incoming.bids) ∧
              (∀ i : Int, (∃ b ∈ inserted, b.id = i) ↔
                  (i ∈ bidIds incoming ∧ i ∉ bidIds stored)))) := by
  refine ⟨?_, ?_⟩
  · intro h; subst h; rfl
  · intro stored h; subst h
    constructor
    · rintro ⟨i, hi, hni⟩
      have hmem : i ∈ (bidIds stored).filter (fun j => decide (j ∉ bidIds incoming)) :=
        List.mem_filter.mpr ⟨hi, by simpa using hni⟩
      have hne : (bidIds stored).filter (fun j => decide (j ∉ bidIds incoming)) ≠ [] :=
        List.ne_nil_of_mem hmem
      simp only [update_auction]
      rw [if_pos hne]
    · intro hall
      have hnil : (bidIds stored).filter (fun j => decide (j ∉ bidIds incoming)) = [] := by
        rw [List.filter_eq_nil_iff]
        intro j hj
        simpa using hall j hj
      refine ⟨((bidIds incoming).dedup.filter (fun j => decide (j ∉ bidIds stored))).filterMap
          (fun i => incoming.bids.find? (fun b => decide (b.id = i))), ?_, ?_, ?_⟩
      · simp only [update_auction]
        rw [if_neg (fun hcontra => hcontra hnil)]
      · intro b hb
        rcases List.mem_filterMap.mp hb with ⟨i, _, hfind⟩
        exact List.mem_of_find?_eq_some hfind
      · intro i
        constructor
        · rintro ⟨b, hb, hbid⟩
          rcases List.mem_filterMap.mp hb with ⟨j, hj, hfind⟩
          have hbj : b.id = j := by simpa using List.find?_some hfind
          rcases List.mem_filter.mp hj with ⟨hjdedup, hjpred⟩
          have hij : i = j := by rw [← hbid, hbj]
          subst hij
          exact ⟨List.mem_dedup.mp hjdedup, by simpa using hjpred⟩
        · rintro ⟨hin, hnot⟩
          have hito : i ∈ (bidIds incoming).dedup.filter (fun j => decide (j ∉ bidIds stored)) :=
            List.mem_filter.mpr ⟨List.mem_dedup.mpr hin, by simpa using hnot⟩
          obtain ⟨b0, hb0, hb0i⟩ := List.mem_map.mp hin
          have hsome : (incoming.bids.find? (fun b => decide (b.id = i))).isSome := by
            rw [List.find?_isSome]
            exact ⟨b0, hb0, by simpa using hb0i⟩
          obtain ⟨b, hfind⟩ := Option.isSome_iff_exists.mp hsome
          refine ⟨b, List.mem_filterMap.mpr ⟨i, hito, hfind⟩, ?_⟩
          simpa using List.find?_some hfind

/-- C6 witness: a stored auction holding bid 1 updated with an incoming
auction holding bids 1 and 2 inserts exactly bid 2. -/
theorem update_auction_spec_witness :
    ∃ inserted, update_auction (some storedOne) sealedBlind = Except.ok inserted ∧
      (∀ b ∈ inserted, b ∈ sealedBlind.bids) ∧
      (∀ i : Int, (∃ b ∈ inserted, b.id = i) ↔
          (i ∈ bidIds sealedBlind ∧ i ∉ bidIds storedOne)) :=
  ((update_auction_spec (some storedOne) sealedBlind).2 storedOne rfl).2 (by decide)

/-- C2: after expiry, a Vickrey auction with exactly one bid resolves to
that bid's amount and user; with two or more bids the bid list can be
reordered descending by amount as `b0 :: b1 :: rest` (`b0` highest, `b1`
highest among the remainder, i.e. the second-highest amount), and the
query yields `(b1.amount, b0.user)` — second price, highest bidder. -/
theorem vickrey_second_price (base : AuctionBase) (t : Int) (ht : base.expiry < t) :
    (∀ b, base.bids = [b] →
        (Auction.SingleSealedBid base .Vickrey).try_get_amount_and_winner t =
          some (b.amount, b.user)) ∧
    (2 ≤ base.bids.length →
        ∃ b0 b1 rest, sortByAmountDesc base.bids = b0 :: b1 :: rest ∧
          base.bids.Perm (b0 :: b1 :: rest) ∧
          (∀ x ∈ base.bids, x.amount.value ≤ b0.amount.value) ∧
          (∀ x ∈ rest, x.amount.value ≤ b1.amount.value) ∧
          b1.amount.value ≤ b0.amount.value ∧
          (Auction.SingleSealedBid base .Vickrey).try_get_amount_and_winner t =
            some (b1.amount, b0.user)) := by
  constructor
  · intro b hb
    have hne : base.bids ≠ [] := by rw [hb]; simp
    simp only [Auction.try_get_amount_and_winner]
    rw [if_neg (by push_neg; exact ⟨ht, hne⟩)]
    rw [hb]
    rfl
  · intro hlen
    have hperm := sortByAmountDesc_perm base.bids
    have hpw := sortByAmountDesc_sorted base.bids
    have hlen2 : 2 ≤ (sortByAmountDesc base.bids).length := by
      rw [hperm.length_eq]; exact hlen
    cases hs : sortByAmountDesc base.bids with
    | nil => rw [hs] at hlen2; simp at hlen2
    | cons b0 tl =>
      cases tl with
      | nil => rw [hs] at hlen2; simp at hlen2
      | cons b1 rest =>
        rw [hs] at hperm hpw
        have hpw1 := List.pairwise_cons.mp hpw
        have hpw2 := List.pairwise_cons.mp hpw1.2
        refine ⟨b0, b1, rest, rfl, hperm.symm, ?_, hpw2.1, hpw1.1 b1 (by simp), ?_⟩
        · intro x hx
          rcases List.mem_cons.mp (hperm.mem_iff.mpr hx) with h | h
          · exact h ▸ le_refl _
          · exact hpw1.1 x h
        · have hne : base.bids ≠ [] := by
            intro h0
            rw [h0] at hlen
            simp at hlen
          have hlen1 : ¬ (base.bids.length = 1) := by omega
          simp only [Auction.try_get_amount_and_winner]
          rw [if_neg (by push_neg; exact ⟨ht, hne⟩), if_neg hlen1, hs]

/-- C2 witness: bids of 150 (x2) and 200 (x3); after expiry the query pays
the second price 150 to winner x3, through the sorted decomposition. -/
theorem vickrey_second_price_witness :
    ∃ b0 b1 rest, sortByAmountDesc vickBase.bids = b0 :: b1 :: rest ∧
      vickBase.bids.Perm (b0 :: b1 :: rest) ∧
      (∀ x ∈ vickBase.bids, x.amount.value ≤ b0.amount.value) ∧
      (∀ x ∈ rest, x.amount.value ≤ b1.amount.value) ∧
      b1.amount.value ≤ b0.amount.value ∧
      (Auction.SingleSealedBid vickBase .Vickrey).try_get_amount_and_winner 101 =
        some (b1.amount, b0.user) :=
  (vickrey_second_price vickBase 101 (by decide)).2 (by decide)

/-- C9 (counterexample): formatting the amount `-1 SEK` yields `"SEK-1"`,
which the parser rejects (the value group is `[0-9]+`), so parsing does not
invert formatting on all amounts. -/
theorem amount_round_trip_fails_negative :
    amount_from_str (renderAmount ⟨-1, .SEK⟩) ≠ Except.ok ⟨-1, .SEK⟩ := by decide

/-- C9 (amended): parsing inverts formatting for every amount with a
non-negative value and a real currency (not the `NONE` sentinel, which
`FromStr` rejects), and for every user none of whose fields contains the
pipe delimiter. -/
theorem parse_format_round_trip (a : Amount) (u : User)
    (ha : 0 ≤ a.value) (hc : a.currency ≠ CurrencyCode.NONE) (hu : pipeFree u = true) :
    amount_from_str (renderAmount a) = Except.ok a ∧
    User.from_string u.render = Except.ok u := by
  constructor
  · have hri : renderInt a.value = renderNat a.value.toNat := by
      unfold renderInt
      rw [if_neg (not_lt.mpr ha)]
    have hup : ∀ c ∈ a.currency.render, isUpperAZ c = true := by
      cases hcc : a.currency with
      | NONE => exact absurd hcc hc
      | VAC => decide
      | SEK => decide
      | DKK => decide
    have hdig := renderNat_all a.value.toNat
    have hne := renderNat_ne_nil a.value.toNat
    have hhead : ∀ c, (renderNat a.value.toNat).head? = some c → isUpperAZ c = false := by
      intro c hc'
      have hcm : c ∈ renderNat a.value.toNat := by
        cases hr : renderNat a.value.toNat with
        | nil => rw [hr] at hc'; cases hc'
        | cons x xs =>
          rw [hr] at hc'
          cases hc'
          simp
      exact (hdig c hcm).2
    obtain ⟨htake, hdrop⟩ :=
      takeWhile_dropWhile_append a.currency.render (renderNat a.value.toNat) hup hhead
    have hcond : ¬ (a.currency.render = [] ∨ renderNat a.value.toNat = [] ∨
        ¬ ((renderNat a.value.toNat).all isDigitCh = true)) := by
      push_neg
      refine ⟨?_, hne, ?_⟩
      · cases hcc : a.currency with
        | NONE => exact absurd hcc hc
        | VAC => decide
        | SEK => decide
        | DKK => decide
      · rw [List.all_eq_true]
        intro c hc'
        exact (hdig c hc').1
    have hcur : parseCurrency a.currency.render = some a.currency := by
      cases hcc : a.currency with
      | NONE => exact absurd hcc hc
      | VAC => decide
      | SEK => decide
      | DKK => decide
    simp only [amount_from_str, renderAmount, hri, htake, hdrop]
    rw [if_neg hcond, hcur, parseNatDigits_renderNat]
    have hval : Int.ofNat a.value.toNat = a.value := by
      simpa using Int.toNat_of_nonneg ha
    rw [hval]
  · have hbos_np : '|' ∉ "BuyerOrSeller".data := by decide
    have hsup_np : '|' ∉ "Support".data := by decide
    cases u with
    | BuyerOrSeller id name =>
      cases name with
      | none =>
        simp only [pipeFree, Bool.and_eq_true, decide_eq_true_eq] at hu
        obtain ⟨hid, -⟩ := hu
        have hsplit : splitPipe ("BuyerOrSeller".data ++ '|' :: id) =
            ["BuyerOrSeller".data, id] := by
          rw [splitPipe_append _ _ hbos_np, splitPipe_no_pipe id hid]
        simp only [User.render, User.from_string, hsplit]
        simp
      | some nm =>
        simp only [pipeFree, Bool.and_eq_true, decide_eq_true_eq] at hu
        obtain ⟨hid, hnm⟩ := hu
        have hsplit : splitPipe ("BuyerOrSeller".data ++ '|' :: (id ++ '|' :: nm)) =
            ["BuyerOrSeller".data, id, nm] := by
          rw [splitPipe_append _ _ hbos_np, splitPipe_append _ _ hid,
            splitPipe_no_pipe nm hnm]
        simp only [User.render, User.from_string, hsplit]
        simp
    | Support id =>
      simp only [pipeFree, decide_eq_true_eq] at hu
      have hsplit : splitPipe ("Support".data ++ '|' :: id) = ["Support".data, id] := by
        rw [splitPipe_append _ _ hsup_np, splitPipe_no_pipe id hu]
      simp only [User.render, User.from_string, hsplit]
      simp

/-- C9 witness: `SEK100` and `BuyerOrSeller|user123|John Doe` both
round-trip. -/
theorem parse_format_round_trip_witness :
    amount_from_str (renderAmount ⟨100, .SEK⟩) = Except.ok ⟨100, .SEK⟩ ∧
    User.from_string (User.render (.BuyerOrSeller "user123".data (some "John Doe".data))) =
      Except.ok (.BuyerOrSeller "user123".data (some "John Doe".data)) :=
  parse_format_round_trip ⟨100, .SEK⟩ (.BuyerOrSeller "user123".data (some "John Doe".data))
    (by decide) (by decide) (by decide)
